import Mathlib

/-!
Verification of the stream-proxy relay subsystem and the background EPG
refresh scheduler of the pywsgi.py server.

Python strings are embedded as lists of characters; the Python string
operations used by the source (split, join, startswith, endswith, strip
truthiness, rsplit) are embedded as executable functions on such lists.
Python dictionaries holding the slug registry and the segment base cache
are embedded as association lists.  Fallible upstream calls and Python
exceptions are embedded with Except; the background scheduler loops are
embedded as functions consuming a finite trace of per-iteration events.
-/

set_option maxRecDepth 4000

namespace PlexProxy

/-- A Python string, embedded as its list of characters. -/
abbrev Str := List Char

/-- The whitespace characters stripped by the Python str.strip method
(restricted to the ASCII whitespace actually reachable in manifests). -/
def isPySpace (c : Char) : Bool :=
  c == ' ' || c == '\t' || c == '\n' || c == '\r' || c == '\x0b' || c == '\x0c'

/-- Truth of the Python expression (not line.strip()): every character of
the string is whitespace. -/
def isBlank (s : Str) : Bool := s.all isPySpace

/-- Python str.startswith. -/
def pyStartsWith (pre s : Str) : Bool := decide (pre <+: s)

/-- Python str.endswith. -/
def pyEndsWith (suf s : Str) : Bool := decide (suf <:+ s)

/-- Python str.split with a one-character separator: always yields at
least one piece, and the empty string splits to one empty piece. -/
def pySplit (sep : Char) : Str → List Str
  | [] => [[]]
  | c :: rest =>
    if c = sep then [] :: pySplit sep rest
    else
      match pySplit sep rest with
      | [] => [[c]]
      | h :: t => (c :: h) :: t

/-- Python sep.join for a one-character separator. -/
def pyJoin (sep : Char) : List Str → Str
  | [] => []
  | [x] => x
  | x :: xs => x ++ sep :: pyJoin sep xs

/-- The Python expression s.split(sep) indexed at -1: the last piece. -/
def last_elem (sep : Char) (s : Str) : Str := (pySplit sep s).getLastD []

/-- The Python expression s.split(sep) indexed at 0: the first piece. -/
def first_elem (sep : Char) (s : Str) : Str := (pySplit sep s).headD []

/-- The stem the rewrite engine extracts from a manifest line: the
Python expression line.split with slash indexed at -1, then split on a
dot indexed at 0 (the part of the last path component before its first
dot). -/
def stemOf (line : Str) : Str := first_elem '.' (last_elem '/' line)

/-- The literal hash mark. -/
def hashStr : Str := "#".data

/-- The literal segment-file suffix. -/
def tsSuffix : Str := ".ts".data

/-- The literal manifest suffix. -/
def m3u8Suffix : Str := ".m3u8".data

/-- The literal proxy segment path prefix. -/
def segmentLit : Str := "/segment/".data

/-- The literal proxy stream path prefix. -/
def streamLit : Str := "/stream/".data

/-- The literal slash. -/
def slashLit : Str := "/".data

/-- One iteration of the rewrite loop body of rewrite_hls_playlist in
pywsgi.py: comments and blank lines pass through; a line ending in the
segment suffix becomes a proxy-local segment path built from the slug
and the extracted stem; a line ending in the manifest suffix becomes a
proxy-local stream path built from the stem; other lines pass through. -/
def rewrite_line (slug line : Str) : Str :=
  if pyStartsWith hashStr line || isBlank line then line
  else if pyEndsWith tsSuffix line then
    segmentLit ++ slug ++ slashLit ++ stemOf line ++ tsSuffix
  else if pyEndsWith m3u8Suffix line then
    streamLit ++ stemOf line
  else line

/-- rewrite_hls_playlist from pywsgi.py: split the manifest on newlines,
rewrite each line, and join with newlines.  The base_url argument is
accepted, as in the source, and never used. -/
def rewrite_hls_playlist (playlist_content slug base_url : Str) : Str :=
  pyJoin '\n' ((pySplit '\n' playlist_content).map (rewrite_line slug))

/-- The Python expression url.rsplit with a slash and maxsplit 1, indexed
at 0: everything before the last slash, or the whole string if it has no
slash. -/
def rsplitHead (sep : Char) (s : Str) : Str :=
  match s.reverse.dropWhile (fun c => c != sep) with
  | [] => s
  | _ :: rest => rest.reverse

/-- The base URL computed by the stream and hls_playlist handlers:
url.rsplit at the last slash, first part, with a slash appended. -/
def base_of (url : Str) : Str := rsplitHead '/' url ++ slashLit

/-- Everything up to and including the last slash of a string; empty if
the string has no slash. -/
def dirname_incl (s : Str) : Str := (s.reverse.dropWhile (fun c => c != '/')).reverse

/-- urllib.parse.urljoin restricted to the references built by
segment_proxy: a plain relative reference (no scheme, authority, leading
slash, query, fragment or dot-segment), which RFC 3986 resolution
appends to the base with the base's last path segment dropped.  The
cached bases here always end with a slash, so the reference is appended
to the base unchanged. -/
def urljoin (base rel : Str) : Str := dirname_incl base ++ rel

/-- A Python dict from slug to URL, embedded as an association list. -/
abbrev Dict := List (Str × Str)

/-- Python dict lookup (the get method): first binding of the key. -/
def dget (d : Dict) (k : Str) : Option Str :=
  match d with
  | [] => none
  | (k', v) :: rest => if k' = k then some v else dget rest k

/-- Python dict item assignment: replace the binding of the key, or
append a new binding. -/
def dset (d : Dict) (k v : Str) : Dict :=
  match d with
  | [] => [(k, v)]
  | (k', v') :: rest => if k' = k then (k, v) :: rest else (k', v') :: dset rest k v

/-- Python dict.update: set every binding of the batch, in order. -/
def dupdate (d new : Dict) : Dict := new.foldl (fun acc kv => dset acc kv.1 kv.2) d

/-- The process-wide mutable maps of pywsgi.py: stream_map (the slug
registry) and segment_base_map (the segment base cache). -/
structure AppState where
  stream_map : Dict
  segment_base_map : Dict
  deriving DecidableEq

/-- An HTTP response produced by a proxy handler: an abort with a status
code, a redirect, or a content response with status, body, content type
and extra headers. -/
inductive Resp where
  | abort (code : Nat)
  | redirect (url : Str) (code : Nat)
  | content (status : Nat) (body : Str) (contentType : Str) (headers : List (Str × Str))
  deriving DecidableEq

/-- An upstream HTTP response as seen through the requests library:
status code, optional content-type header, and body text. -/
structure UpstreamResp where
  status : Nat
  contentType : Option Str
  body : Str
  deriving DecidableEq

/-- The outcome of an upstream requests.get call: a response, or a
raised exception (connection error, timeout). -/
inductive FetchResult where
  | resp (r : UpstreamResp)
  | raises (e : Str)
  deriving DecidableEq

/-- The upstream request issued by segment_proxy: the URL fetched and
the Range header forwarded, if any. -/
structure SegReq where
  url : Str
  range : Option Str
  deriving DecidableEq

/-- The Range header segment_proxy forwards: the client's Range header
when it is present and truthy (non-empty), else nothing. -/
def forwarded_range (range : Option Str) : Option Str :=
  match range with
  | some r => if r.isEmpty then none else some r
  | none => none

/-- The register handler (POST /register): merge the posted map into
stream_map and answer OK with status 200. -/
def register (st : AppState) (new_map : Dict) : AppState × (Str × Nat) :=
  ({ st with stream_map := dupdate st.stream_map new_map }, ("OK".data, 200))

/-- The register_proxy_map handler (the second POST /register route):
merge the parsed JSON body into stream_map and answer 200, or answer 500
when reading the body raises. -/
def register_proxy_map (st : AppState) (body : Option Dict) : AppState × Nat :=
  match body with
  | some data => ({ st with stream_map := dupdate st.stream_map data }, 200)
  | none => (st, 500)

/-- The stream handler (GET /stream/slug): look the slug up in
stream_map; a missing or falsy (empty) URL aborts 404; a URL ending in
the manifest suffix has its base stored in segment_base_map; the
response is a 302 redirect to the URL. -/
def stream (st : AppState) (slug : Str) : AppState × Resp :=
  match dget st.stream_map slug with
  | none => (st, Resp.abort 404)
  | some url =>
    if url.isEmpty then (st, Resp.abort 404)
    else
      let st' :=
        if pyEndsWith m3u8Suffix url then
          { st with segment_base_map := dset st.segment_base_map slug (base_of url) }
        else st
      (st', Resp.redirect url 302)

/-- The extra headers segment_proxy puts on a proxied segment response. -/
def segHeaders : List (Str × Str) :=
  [("Accept-Ranges".data, "bytes".data), ("Cache-Control".data, "public, max-age=86400".data)]

/-- The segment_proxy handler (GET /segment/slug/index.ts): a missing or
falsy cached base aborts 404; otherwise the segment URL is urljoin of
the base and the index with the segment suffix, the client's truthy
Range header is forwarded, and the upstream response is streamed back
with its own status code and content type; a raised fetch error or a
missing upstream content-type header aborts 502. -/
def segment_proxy (st : AppState) (slug index : Str) (range : Option Str)
    (upstream : FetchResult) : Option SegReq × Resp :=
  match dget st.segment_base_map slug with
  | none => (none, Resp.abort 404)
  | some base_url =>
    if base_url.isEmpty then (none, Resp.abort 404)
    else
      let req : SegReq := { url := urljoin base_url (index ++ tsSuffix), range := forwarded_range range }
      match upstream with
      | FetchResult.raises _ => (some req, Resp.abort 502)
      | FetchResult.resp r =>
        match r.contentType with
        | none => (some req, Resp.abort 502)
        | some ct => (some req, Resp.content r.status r.body ct segHeaders)

/-- The content type of a rewritten manifest response. -/
def hlsMime : Str := "application/vnd.apple.mpegurl".data

/-- The extra headers of a rewritten manifest response. -/
def hlsHeaders : List (Str × Str) := [("Cache-Control".data, "public, max-age=300".data)]

/-- The hls_playlist handler (GET /hls/slug.m3u8): a missing or falsy
URL aborts 404; a raised fetch error or a 4xx or 5xx upstream status
(raise_for_status) aborts 502; otherwise the manifest body is rewritten
with the slug and the base computed from the URL, and served with status
200.  The handler never writes segment_base_map. -/
def hls_playlist (st : AppState) (slug : Str) (upstream : FetchResult) : AppState × Resp :=
  match dget st.stream_map slug with
  | none => (st, Resp.abort 404)
  | some url =>
    if url.isEmpty then (st, Resp.abort 404)
    else
      match upstream with
      | FetchResult.raises _ => (st, Resp.abort 502)
      | FetchResult.resp r =>
        if 400 ≤ r.status ∧ r.status < 600 then (st, Resp.abort 502)
        else
          (st, Resp.content 200 (rewrite_hls_playlist r.body slug (base_of url)) hlsMime hlsHeaders)

/-- One call of the provider's epg operation: it either returns (with an
optional error value) or raises. -/
inductive EpgBehavior where
  | returns (err : Option Str)
  | raises (e : Str)
  deriving DecidableEq

/-- The provider epg call as an Except value: ok with the returned
optional error, or a raised exception. -/
def epg_call (b : EpgBehavior) : Except Str (Option Str) :=
  match b with
  | EpgBehavior.returns r => Except.ok r
  | EpgBehavior.raises e => Except.error e

/-- epg_scheduler from pywsgi.py: call the provider's epg operation
inside a try block; a returned error value is logged, and a raised
exception is caught and logged; the function itself always completes,
yielding its list of logged error messages. -/
def epg_scheduler (b : EpgBehavior) : Except Str (List Str) :=
  match epg_call b with
  | Except.ok none => Except.ok []
  | Except.ok (some m) => Except.ok [m]
  | Except.error e => Except.ok [e]

/-- One iteration of the steady-state scheduler loop, described by what
happens during it: an optional cadence-elapsed refresh, an optional
manual-trigger refresh, and an optional unexpected exception raised by
the loop body itself. -/
structure Tick where
  scheduled : Option EpgBehavior
  manual : Option EpgBehavior
  fault : Option Str
  deriving DecidableEq

/-- Run an optional refresh through epg_scheduler. -/
def run_refresh (o : Option EpgBehavior) : Except Str (List Str) :=
  match o with
  | none => Except.ok []
  | some b => epg_scheduler b

/-- The body of one iteration of the main scheduler loop: an unexpected
exception propagates; otherwise the refreshes of the tick run through
epg_scheduler and their logs are collected. -/
def loop_body (t : Tick) : Except Str (List Str) :=
  match t.fault with
  | some e => Except.error e
  | none =>
    match run_refresh t.scheduled, run_refresh t.manual with
    | Except.ok l1, Except.ok l2 => Except.ok (l1 ++ l2)
    | Except.error e, _ => Except.error e
    | _, Except.error e => Except.error e

/-- The main scheduler loop of scheduler_thread over a finite trace of
iterations: the try block around the body logs a caught exception and
breaks.  Yields the collected logs and the index of the iteration at
which the loop broke (none if it was still running at the end of the
trace). -/
def scheduler_main_loop : List Tick → List Str × Option Nat
  | [] => ([], none)
  | t :: rest =>
    match loop_body t with
    | Except.error e => ([e], some 0)
    | Except.ok logs =>
      let r := scheduler_main_loop rest
      (logs ++ r.1, r.2.map (· + 1))

/-- One attempt of the initial refresh run at scheduler start: the epg
behavior of the run, and an optional unexpected exception raised around
it. -/
structure Attempt where
  behavior : EpgBehavior
  fault : Option Str
  deriving DecidableEq

/-- The body of one initial-run attempt: an unexpected exception
propagates; otherwise epg_scheduler runs (itself swallowing epg
errors). -/
def init_attempt (a : Attempt) : Except Str (List Str) :=
  match a.fault with
  | some e => Except.error e
  | none => epg_scheduler a.behavior

/-- The startup loop of scheduler_thread over a finite trace of
attempts: a completed attempt breaks to the main loop; a raised attempt
logs, sleeps 10 seconds and retries.  Yields the logs and, when some
attempt completed, the number of attempts consumed and the total seconds
slept; none when every attempt in the trace raised. -/
def initial_phase : List Attempt → List Str × Option (Nat × Nat)
  | [] => ([], none)
  | a :: rest =>
    match init_attempt a with
    | Except.ok logs => (logs, some (1, 0))
    | Except.error e =>
      let r := initial_phase rest
      (e :: r.1, r.2.map (fun p => (p.1 + 1, p.2 + 10)))

/-- A finite behavior trace of one scheduler thread: the attempts
offered to the startup loop, then the iterations offered to the main
loop. -/
structure SchedulerTrace where
  init : List Attempt
  main : List Tick
  deriving DecidableEq

/-- The observable outcome of one scheduler thread run over a trace. -/
structure SchedulerRun where
  entered_main : Bool
  init_attempts : Nat
  init_sleep : Nat
  dead_at : Option Nat
  deriving DecidableEq

/-- scheduler_thread from pywsgi.py over a finite trace: the startup
loop runs first; only when it completes does the main loop run. -/
def scheduler_thread (tr : SchedulerTrace) : SchedulerRun :=
  match (initial_phase tr.init).2 with
  | none =>
    { entered_main := false, init_attempts := tr.init.length,
      init_sleep := 10 * tr.init.length, dead_at := none }
  | some p =>
    { entered_main := true, init_attempts := p.1, init_sleep := p.2,
      dead_at := (scheduler_main_loop tr.main).2 }

/-- Index of the first iteration whose body raises an unexpected
exception, stated directly on the trace. -/
def first_fault_index : List Tick → Option Nat
  | [] => none
  | t :: rest => if t.fault.isSome then some 0 else (first_fault_index rest).map (· + 1)

/-- Index of the first initial-run attempt that completes without an
unexpected exception, stated directly on the trace. -/
def first_success_index : List Attempt → Option Nat
  | [] => none
  | a :: rest => if a.fault.isNone then some 0 else (first_success_index rest).map (· + 1)


/-! ### Concrete values used in counterexamples and witnesses -/

/-- The slug used by the spec's round-trip examples. -/
def exSlugAbc : Str := "abc".data

/-- A one-line manifest naming a segment file. -/
def exTsManifest : Str := "seg/42.ts".data

/-- The expected rewrite of the segment manifest. -/
def exTsExpected : Str := "/segment/abc/42.ts".data

/-- A one-line manifest whose segment filename contains an extra dot. -/
def exDotManifest : Str := "seg/4.2.ts".data

/-- What the rewrite engine actually produces for the extra-dot manifest. -/
def exDotActual : Str := "/segment/abc/4.ts".data

/-- What the claim's reading (stem up to the extension) would produce for
the extra-dot manifest. -/
def exDotClaimed : Str := "/segment/abc/4.2.ts".data

/-- A one-line manifest naming a variant playlist. -/
def exVariantManifest : Str := "variant/720p.m3u8".data

/-- The expected rewrite of the variant manifest. -/
def exStreamExpected : Str := "/stream/720p".data

/-- A slug containing a newline character. -/
def exNlSlug : Str := "a\nb".data

/-- A minimal segment line manifest. -/
def exTsLine : Str := "x.ts".data

/-- A mixed manifest with a comment, a segment, a variant and a plain line. -/
def exMixedManifest : Str := "#EXTM3U\nseg/42.ts\nvariant/720p.m3u8\nother".data

/-- A manifest with CRLF line endings: after splitting on the newline, each
line keeps its trailing carriage return. -/
def exCrlfManifest : Str := "#EXTM3U\r\nseg/42.ts\r".data

/-- A segment line carrying a trailing carriage return. -/
def exCrLine : Str := "seg/42.ts\r".data

/-- Registry keys and values of the spec's merge scenario. -/
def keyA : Str := "a".data

/-- Second registry key of the merge scenario. -/
def keyB : Str := "b".data

/-- First value of the merge scenario. -/
def valU1 : Str := "u1".data

/-- Second value of the merge scenario. -/
def valU2 : Str := "u2".data

/-- Overwriting value of the merge scenario. -/
def valU3 : Str := "u3".data

/-- The empty application state. -/
def exSt0 : AppState := { stream_map := [], segment_base_map := [] }

/-- State after registering the first batch of the merge scenario. -/
def exSt1 : AppState := (register exSt0 [(keyA, valU1)]).1

/-- State after registering the second batch. -/
def exSt2 : AppState := (register exSt1 [(keyB, valU2)]).1

/-- State after re-registering the first key with a new value. -/
def exSt3 : AppState := (register exSt2 [(keyA, valU3)]).1

/-- A slug for the handler examples. -/
def wSlug : Str := "s".data

/-- An upstream manifest URL for the handler examples. -/
def wUrl : Str := "http://h/p/index.m3u8".data

/-- A registry state binding the example slug to the manifest URL, with an
empty segment base cache. -/
def wState : AppState := { stream_map := [(wSlug, wUrl)], segment_base_map := [] }

/-- A successful upstream fetch of a manifest body. -/
def wFetchOk : FetchResult :=
  FetchResult.resp { status := 200, contentType := some ("application/vnd.apple.mpegurl".data),
                     body := exTsManifest }

/-- A cached segment base for the segment-proxy examples. -/
def wBase : Str := "http://h/a/".data

/-- A state whose segment base cache binds the example slug. -/
def wSegState : AppState := { stream_map := [], segment_base_map := [(wSlug, wBase)] }

/-- An upstream segment response with a non-2xx status. -/
def wUp404 : FetchResult :=
  FetchResult.resp { status := 404, contentType := some ("text/plain".data), body := "gone".data }

/-- A successful upstream segment response. -/
def wUpOk : FetchResult :=
  FetchResult.resp { status := 200, contentType := some ("video/mp2t".data), body := "data".data }

/-- An example segment index. -/
def wIndex : Str := "42".data

/-- An example Range header value. -/
def wRange : Str := "bytes=0-".data

/-- A scheduler iteration that raises an unexpected exception in the loop
body. -/
def cexTick : Tick := { scheduled := none, manual := none, fault := some ("boom".data) }

/-- A scheduler iteration in which both refreshes fail (one returns an
error value, one raises) but the loop body itself raises nothing. -/
def swallowTick : Tick :=
  { scheduled := some (EpgBehavior.returns (some ("E1".data))),
    manual := some (EpgBehavior.raises ("E2".data)), fault := none }

/-- A scheduler trace whose first initial attempt raises unexpectedly and
whose second completes. -/
def wSchedTrace : SchedulerTrace :=
  { init := [{ behavior := EpgBehavior.returns none, fault := some ("x".data) },
             { behavior := EpgBehavior.raises ("y".data), fault := none }],
    main := [] }

end PlexProxy


namespace PlexProxy

/-! ### Helper lemmas about the embedded Python string operations -/

theorem pyJoin_cons_cons (sep : Char) (x y : Str) (t : List Str) :
    pyJoin sep (x :: y :: t) = x ++ sep :: pyJoin sep (y :: t) := rfl

theorem pySplit_cons_sep (sep : Char) (rest : Str) :
    pySplit sep (sep :: rest) = [] :: pySplit sep rest := by
  simp [pySplit]

theorem pySplit_ne_nil (sep : Char) (s : Str) : pySplit sep s ≠ [] := by
  cases s with
  | nil => simp [pySplit]
  | cons c rest =>
    simp only [pySplit]
    split
    · simp
    · rcases h : pySplit sep rest with _ | ⟨h0, t⟩ <;> simp

theorem pySplit_cons_ne {sep c : Char} {h0 : Str} {t : List Str} (rest : Str)
    (hc : c ≠ sep) (hps : pySplit sep rest = h0 :: t) :
    pySplit sep (c :: rest) = (c :: h0) :: t := by
  simp [pySplit, hc, hps]

theorem sep_not_mem_of_mem_pySplit {sep : Char} {s l : Str}
    (hl : l ∈ pySplit sep s) : sep ∉ l := by
  induction s generalizing l with
  | nil =>
    simp [pySplit] at hl
    simp [hl]
  | cons c rest ih =>
    by_cases hc : c = sep
    · subst hc
      rw [pySplit_cons_sep] at hl
      rcases List.mem_cons.mp hl with h | h
      · simp [h]
      · exact ih h
    · rcases hps : pySplit sep rest with _ | ⟨h0, t⟩
      · exact absurd hps (pySplit_ne_nil sep rest)
      · rw [pySplit_cons_ne rest hc hps] at hl
        rcases List.mem_cons.mp hl with h | h
        · subst h
          intro hmem
          rcases List.mem_cons.mp hmem with h' | h'
          · exact hc h'.symm
          · exact ih (hps ▸ List.mem_cons_self h0 t) h'
        · exact ih (hps ▸ List.mem_cons_of_mem h0 h)

theorem mem_of_mem_pySplit {sep : Char} {s l : Str} {a : Char}
    (hl : l ∈ pySplit sep s) (ha : a ∈ l) : a ∈ s := by
  induction s generalizing l with
  | nil =>
    simp [pySplit] at hl
    subst hl
    exact absurd ha (List.not_mem_nil a)
  | cons c rest ih =>
    by_cases hc : c = sep
    · subst hc
      rw [pySplit_cons_sep] at hl
      rcases List.mem_cons.mp hl with h | h
      · subst h; exact absurd ha (List.not_mem_nil a)
      · exact List.mem_cons_of_mem c (ih h ha)
    · rcases hps : pySplit sep rest with _ | ⟨h0, t⟩
      · exact absurd hps (pySplit_ne_nil sep rest)
      · rw [pySplit_cons_ne rest hc hps] at hl
        rcases List.mem_cons.mp hl with h | h
        · subst h
          rcases List.mem_cons.mp ha with h' | h'
          · simp [h']
          · exact List.mem_cons_of_mem c (ih (hps ▸ List.mem_cons_self h0 t) h')
        · exact List.mem_cons_of_mem c (ih (hps ▸ List.mem_cons_of_mem h0 h) ha)

theorem headD_pySplit (sep : Char) (s : Str) :
    (pySplit sep s).headD [] = s.takeWhile (fun c => c != sep) := by
  induction s with
  | nil => simp [pySplit]
  | cons c rest ih =>
    by_cases hc : c = sep
    · subst hc
      rw [pySplit_cons_sep]
      simp [List.takeWhile_cons]
    · rcases hps : pySplit sep rest with _ | ⟨h0, t⟩
      · exact absurd hps (pySplit_ne_nil sep rest)
      · rw [pySplit_cons_ne rest hc hps]
        rw [hps] at ih
        simp [List.takeWhile_cons, hc, ← ih]

theorem pySplit_of_not_mem {sep : Char} {s : Str} (h : sep ∉ s) :
    pySplit sep s = [s] := by
  induction s with
  | nil => rfl
  | cons c rest ih =>
    have hc : c ≠ sep := fun hh => h (by simp [hh])
    have hrest : sep ∉ rest := fun hh => h (List.mem_cons_of_mem c hh)
    exact pySplit_cons_ne rest hc (ih hrest)

theorem two_le_length_pySplit {sep : Char} {s : Str} (h : sep ∈ s) :
    2 ≤ (pySplit sep s).length := by
  induction s with
  | nil => exact absurd h (List.not_mem_nil sep)
  | cons c rest ih =>
    by_cases hc : c = sep
    · subst hc
      rw [pySplit_cons_sep]
      have := List.length_pos.mpr (pySplit_ne_nil c rest)
      simp only [List.length_cons]
      omega
    · have hrest : sep ∈ rest := by
        rcases List.mem_cons.mp h with hh | hh
        · exact absurd hh.symm hc
        · exact hh
      rcases hps : pySplit sep rest with _ | ⟨h0, t⟩
      · exact absurd hps (pySplit_ne_nil sep rest)
      · have h2 := ih hrest
        rw [hps] at h2
        rw [pySplit_cons_ne rest hc hps]
        simp only [List.length_cons] at *
        omega

theorem mem_of_two_le_length_pySplit {sep : Char} {s : Str}
    (h : 2 ≤ (pySplit sep s).length) : sep ∈ s := by
  by_contra hmem
  rw [pySplit_of_not_mem hmem] at h
  simp at h

theorem getLastD_irrel {α : Type} (l : List α) (d d' : α) (h : l ≠ []) :
    l.getLastD d = l.getLastD d' := by
  cases l with
  | nil => exact absurd rfl h
  | cons a t => rw [List.getLastD_cons d a t, List.getLastD_cons d' a t]

theorem takeWhile_append_stop {α : Type} (p : α → Bool) (xs ys : List α) (y : α)
    (hy : p y = false) : (xs ++ y :: ys).takeWhile p = xs.takeWhile p := by
  induction xs with
  | nil => simp [List.takeWhile_cons, hy]
  | cons x xs ih =>
    by_cases hx : p x <;> simp [List.takeWhile_cons, hx, ih]

theorem takeWhile_eq_of_all {α : Type} {p : α → Bool} {xs : List α}
    (h : ∀ a ∈ xs, p a = true) : xs.takeWhile p = xs := by
  induction xs with
  | nil => rfl
  | cons x xs ih =>
    have hx := h x (List.mem_cons_self x xs)
    simp [List.takeWhile_cons, hx, ih (fun a ha => h a (List.mem_cons_of_mem x ha))]

theorem takeWhile_append_of_exists {α : Type} {p : α → Bool} {u : List α} (w : List α)
    (h : ∃ a ∈ u, p a = false) : (u ++ w).takeWhile p = u.takeWhile p := by
  induction u with
  | nil => rcases h with ⟨a, ha, _⟩; exact absurd ha (List.not_mem_nil a)
  | cons x u ih =>
    by_cases hx : p x
    · have hex : ∃ a ∈ u, p a = false := by
        rcases h with ⟨a, ha, hpa⟩
        rcases List.mem_cons.mp ha with rfl | ha'
        · rw [hx] at hpa; exact absurd hpa (by simp)
        · exact ⟨a, ha', hpa⟩
      simp [List.takeWhile_cons, hx, ih hex]
    · simp [List.takeWhile_cons, hx]

theorem getLastD_pySplit (sep : Char) (s : Str) :
    (pySplit sep s).getLastD [] = (s.reverse.takeWhile (fun c => c != sep)).reverse := by
  induction s with
  | nil => simp [pySplit]
  | cons c rest ih =>
    by_cases hc : c = sep
    · subst hc
      rw [pySplit_cons_sep, List.getLastD_cons, List.reverse_cons,
        takeWhile_append_stop _ rest.reverse [] c (by simp)]
      exact ih
    · rcases hps : pySplit sep rest with _ | ⟨h0, t⟩
      · exact absurd hps (pySplit_ne_nil sep rest)
      · rw [pySplit_cons_ne rest hc hps, List.reverse_cons]
        cases t with
        | nil =>
          have hnm : sep ∉ rest := by
            intro hmem
            have h2 := two_le_length_pySplit hmem
            rw [hps] at h2
            simp at h2
          have hall : ∀ a ∈ rest.reverse ++ [c], (fun c => c != sep) a = true := by
            intro a ha
            rcases List.mem_append.mp ha with ha | ha
            · have hm : a ∈ rest := List.mem_reverse.mp ha
              simp only [bne_iff_ne, ne_eq]
              intro heq
              exact hnm (heq ▸ hm)
            · simp only [List.mem_singleton] at ha
              subst ha
              simp [hc]
          have hrest : h0 = rest := by
            have h3 := pySplit_of_not_mem hnm
            rw [hps] at h3
            exact ((List.cons.injEq _ _ _ _).mp h3).1
          rw [takeWhile_eq_of_all hall]
          simp [hrest]
        | cons t0 t' =>
          have hmem : sep ∈ rest :=
            @mem_of_two_le_length_pySplit sep rest (by
              rw [hps]
              simp only [List.length_cons]
              omega)
          have hx : ∃ a ∈ rest.reverse, (fun c => c != sep) a = false :=
            ⟨sep, List.mem_reverse.mpr hmem, by simp⟩
          rw [takeWhile_append_of_exists [c] hx, ← ih, hps,
            List.getLastD_cons [] (c :: h0) (t0 :: t'),
            List.getLastD_cons [] h0 (t0 :: t')]
          exact getLastD_irrel (t0 :: t') (c :: h0) h0 (by simp)

theorem pyJoin_pySplit (sep : Char) (s : Str) : pyJoin sep (pySplit sep s) = s := by
  induction s with
  | nil => rfl
  | cons c rest ih =>
    by_cases hc : c = sep
    · rcases hps : pySplit sep rest with _ | ⟨h0, t⟩
      · exact absurd hps (pySplit_ne_nil sep rest)
      · rw [hc, pySplit_cons_sep, hps, pyJoin_cons_cons, ← hps, ih]
        rfl
    · rcases hps : pySplit sep rest with _ | ⟨h0, t⟩
      · exact absurd hps (pySplit_ne_nil sep rest)
      · rw [pySplit_cons_ne rest hc hps]
        cases t with
        | nil =>
          rw [hps] at ih
          have h1 : pyJoin sep [h0] = h0 := rfl
          rw [h1] at ih
          show c :: h0 = c :: rest
          rw [ih]
        | cons t0 t' =>
          rw [hps, pyJoin_cons_cons] at ih
          rw [pyJoin_cons_cons]
          show c :: (h0 ++ sep :: pyJoin sep (t0 :: t')) = c :: rest
          rw [ih]

theorem pySplit_append_cons {sep : Char} {x : Str} (rest : Str) (h : sep ∉ x) :
    pySplit sep (x ++ sep :: rest) = x :: pySplit sep rest := by
  induction x with
  | nil => simp [pySplit_cons_sep]
  | cons a x' ih =>
    have ha : a ≠ sep := fun hh => h (by simp [hh])
    have hx' : sep ∉ x' := fun hh => h (List.mem_cons_of_mem a hh)
    rw [List.cons_append]
    exact pySplit_cons_ne (x' ++ sep :: rest) ha (ih hx')

theorem pySplit_pyJoin {sep : Char} {ls : List Str} (hne : ls ≠ [])
    (hmem : ∀ l ∈ ls, sep ∉ l) : pySplit sep (pyJoin sep ls) = ls := by
  induction ls with
  | nil => exact absurd rfl hne
  | cons x ls' ih =>
    cases ls' with
    | nil =>
      have h1 : pyJoin sep [x] = x := rfl
      rw [h1]
      exact pySplit_of_not_mem (hmem x (List.mem_cons_self x []))
    | cons y t =>
      rw [pyJoin_cons_cons,
        pySplit_append_cons _ (hmem x (List.mem_cons_self x (y :: t))),
        ih (by simp) (fun l hl => hmem l (List.mem_cons_of_mem x hl))]


/-! ### Helper lemmas about the embedded dict operations -/

theorem dget_dset (d : Dict) (k v k' : Str) :
    dget (dset d k v) k' = if k = k' then some v else dget d k' := by
  induction d with
  | nil => simp [dset, dget]
  | cons kv rest ih =>
    obtain ⟨k0, v0⟩ := kv
    by_cases h0 : k0 = k
    · subst h0
      simp only [dset, if_pos rfl, dget]
      by_cases h1 : k0 = k'
      · simp [h1]
      · simp [h1]
    · simp only [dset, if_neg h0, dget]
      by_cases h1 : k0 = k'
      · have h2 : ¬ k = k' := fun hh => h0 (hh ▸ h1)
        simp [h1, h2]
      · simp [h1, ih]

theorem dget_append (d1 d2 : Dict) (k : Str) :
    dget (d1 ++ d2) k = Option.or (dget d1 k) (dget d2 k) := by
  induction d1 with
  | nil => simp [dget, Option.or]
  | cons kv rest ih =>
    obtain ⟨k0, v0⟩ := kv
    by_cases h0 : k0 = k
    · simp [dget, h0, Option.or]
    · simp [dget, h0, ih]

theorem dget_dupdate (d new : Dict) (k : Str) :
    dget (dupdate d new) k = Option.or (dget new.reverse k) (dget d k) := by
  induction new generalizing d with
  | nil => simp [dupdate, dget, Option.or]
  | cons kv rest ih =>
    obtain ⟨k0, v0⟩ := kv
    have hfold : dupdate d ((k0, v0) :: rest) = dupdate (dset d k0 v0) rest := rfl
    rw [hfold, ih, List.reverse_cons, dget_append, Option.or_assoc, dget_dset]
    by_cases h0 : k0 = k
    · simp [dget, h0, Option.or]
    · simp [dget, h0, Option.or]

/-! ### Helper lemmas about suffixes, prefixes and blank tests -/

theorem pyEndsWith_append (suf x : Str) : pyEndsWith suf (x ++ suf) = true :=
  decide_eq_true (List.suffix_append x suf)

theorem mem_of_pyEndsWith {suf s : Str} {a : Char}
    (h : pyEndsWith suf s = true) (ha : a ∈ suf) : a ∈ s :=
  (of_decide_eq_true h).subset ha

theorem pyEndsWith_false_of_not_mem {suf s : Str} {a : Char}
    (ha : a ∈ suf) (hs : a ∉ s) : pyEndsWith suf s = false :=
  decide_eq_false (fun hsuf => hs (hsuf.subset ha))

theorem getLast?_of_pyEndsWith {suf s : Str} {x : Char}
    (h : pyEndsWith suf s = true) (hx : suf.getLast? = some x) :
    s.getLast? = some x := by
  obtain ⟨t, ht⟩ := of_decide_eq_true h
  rw [← ht, List.getLast?_append, hx]
  rfl

theorem pyStartsWith_cons_ne {a b : Char} (l : Str) (h : a ≠ b) :
    pyStartsWith [a] (b :: l) = false := by
  apply decide_eq_false
  intro hpre
  exact h (List.cons_prefix_cons.mp hpre).1

theorem isBlank_false_of_mem {s : Str} {a : Char}
    (ha : a ∈ s) (hsp : isPySpace a = false) : isBlank s = false := by
  cases h : isBlank s with
  | false => rfl
  | true =>
    have := List.all_eq_true.mp h a ha
    rw [hsp] at this
    exact absurd this (by simp)

/-! ### Helper lemmas about the extracted stem -/

theorem first_elem_eq_takeWhile (sep : Char) (s : Str) :
    first_elem sep s = s.takeWhile (fun c => c != sep) := headD_pySplit sep s

theorem last_elem_eq_takeWhile (sep : Char) (s : Str) :
    last_elem sep s = (s.reverse.takeWhile (fun c => c != sep)).reverse :=
  getLastD_pySplit sep s

theorem getLastD_mem {α : Type} (l : List α) (d : α) (h : l ≠ []) : l.getLastD d ∈ l := by
  induction l with
  | nil => exact absurd rfl h
  | cons a t ih =>
    cases t with
    | nil => simp [List.getLastD_cons]
    | cons b t' =>
      rw [List.getLastD_cons]
      exact List.mem_cons_of_mem a (ih (by simp))

theorem last_elem_mem_pySplit (sep : Char) (s : Str) :
    last_elem sep s ∈ pySplit sep s :=
  getLastD_mem (pySplit sep s) [] (pySplit_ne_nil sep s)

theorem sep_not_mem_last_elem (sep : Char) (s : Str) : sep ∉ last_elem sep s :=
  sep_not_mem_of_mem_pySplit (last_elem_mem_pySplit sep s)

theorem mem_of_mem_last_elem {sep : Char} {s : Str} {a : Char}
    (ha : a ∈ last_elem sep s) : a ∈ s :=
  mem_of_mem_pySplit (last_elem_mem_pySplit sep s) ha

theorem dot_not_mem_stemOf (line : Str) : '.' ∉ stemOf line := by
  intro hmem
  rw [stemOf, first_elem_eq_takeWhile] at hmem
  have := List.mem_takeWhile_imp hmem
  simp at this

theorem mem_last_elem_of_mem_stemOf {line : Str} {a : Char}
    (ha : a ∈ stemOf line) : a ∈ last_elem '/' line := by
  rw [stemOf, first_elem_eq_takeWhile] at ha
  exact (List.takeWhile_prefix _).subset ha

theorem slash_not_mem_stemOf (line : Str) : '/' ∉ stemOf line :=
  fun hmem => sep_not_mem_last_elem '/' line (mem_last_elem_of_mem_stemOf hmem)

theorem mem_of_mem_stemOf {line : Str} {a : Char}
    (ha : a ∈ stemOf line) : a ∈ line :=
  mem_of_mem_last_elem (mem_last_elem_of_mem_stemOf ha)

theorem last_elem_append_sep {sep : Char} {t : Str} (x : Str) (ht : sep ∉ t) :
    last_elem sep (x ++ sep :: t) = t := by
  rw [last_elem_eq_takeWhile, List.reverse_append, List.reverse_cons, List.append_assoc,
    List.singleton_append,
    takeWhile_append_stop _ t.reverse x.reverse sep (by simp),
    takeWhile_eq_of_all (by
      intro a ha
      have hm : a ∈ t := List.mem_reverse.mp ha
      simp only [bne_iff_ne, ne_eq]
      intro heq
      exact ht (heq ▸ hm)),
    List.reverse_reverse]

theorem first_elem_append_sep {sep : Char} {x : Str} (t : Str) (hx : sep ∉ x) :
    first_elem sep (x ++ sep :: t) = x := by
  rw [first_elem_eq_takeWhile,
    takeWhile_append_stop _ x t sep (by simp),
    takeWhile_eq_of_all (by
      intro a ha
      simp only [bne_iff_ne, ne_eq]
      intro heq
      exact hx (heq ▸ ha))]


/-! ### Helper lemmas about the lines produced by the rewrite engine -/

theorem segmentLit_cons : segmentLit = '/' :: "segment/".data := rfl

theorem streamLit_cons : streamLit = '/' :: "stream/".data := rfl

theorem tsSuffix_cons : tsSuffix = '.' :: "ts".data := rfl

theorem hashStr_eq : hashStr = ['#'] := rfl

theorem slashLit_eq : slashLit = ['/'] := rfl

theorem pyStartsWith_hash_slash (X : Str) : pyStartsWith hashStr ('/' :: X) = false := by
  rw [hashStr_eq]
  exact pyStartsWith_cons_ne X (by decide)

theorem pyEndsWith_m3u8_false_of_ts {s : Str} (h : pyEndsWith tsSuffix s = true) :
    pyEndsWith m3u8Suffix s = false := by
  cases hm : pyEndsWith m3u8Suffix s with
  | false => rfl
  | true =>
    have h1 : s.getLast? = some 's' := getLast?_of_pyEndsWith h (by decide)
    have h2 : s.getLast? = some '8' := getLast?_of_pyEndsWith hm (by decide)
    rw [h1] at h2
    exact absurd h2 (by decide)

theorem pyEndsWith_ts_false_of_m3u8 {s : Str} (h : pyEndsWith m3u8Suffix s = true) :
    pyEndsWith tsSuffix s = false := by
  cases hm : pyEndsWith tsSuffix s with
  | false => rfl
  | true =>
    have h1 : s.getLast? = some '8' := getLast?_of_pyEndsWith h (by decide)
    have h2 : s.getLast? = some 's' := getLast?_of_pyEndsWith hm (by decide)
    rw [h1] at h2
    exact absurd h2 (by decide)

theorem seg_shape_cons (slug t : Str) :
    segmentLit ++ slug ++ slashLit ++ t ++ tsSuffix
      = '/' :: ("segment/".data ++ slug ++ slashLit ++ t ++ tsSuffix) := by
  simp only [segmentLit_cons, List.cons_append]

theorem stream_shape_cons (t : Str) :
    streamLit ++ t = '/' :: ("stream/".data ++ t) := by
  simp only [streamLit_cons, List.cons_append]

theorem slash_mem_seg_shape (slug t : Str) :
    '/' ∈ segmentLit ++ slug ++ slashLit ++ t ++ tsSuffix :=
  List.mem_append_left _ (List.mem_append_left _ (List.mem_append_left _
    (List.mem_append_left _ (by decide))))

theorem slash_mem_stream_shape (t : Str) : '/' ∈ streamLit ++ t :=
  List.mem_append_left _ (by decide)

theorem stemOf_seg_shape (slug t : Str) (h1 : '/' ∉ t) (h2 : '.' ∉ t) :
    stemOf (segmentLit ++ slug ++ slashLit ++ t ++ tsSuffix) = t := by
  have hassoc : segmentLit ++ slug ++ slashLit ++ t ++ tsSuffix
      = (segmentLit ++ slug) ++ '/' :: (t ++ tsSuffix) := by
    simp only [List.append_assoc, slashLit_eq, List.singleton_append, List.cons_append,
      List.nil_append]
  have hnoslash : '/' ∉ t ++ tsSuffix := by
    intro hmem
    rcases List.mem_append.mp hmem with hmem | hmem
    · exact h1 hmem
    · exact absurd hmem (by decide)
  rw [hassoc, stemOf, last_elem_append_sep _ hnoslash, tsSuffix_cons]
  exact first_elem_append_sep _ h2

theorem rewrite_line_seg_shape (slug slug2 t : Str) (h1 : '/' ∉ t) (h2 : '.' ∉ t) :
    rewrite_line slug2 (segmentLit ++ slug ++ slashLit ++ t ++ tsSuffix)
      = segmentLit ++ slug2 ++ slashLit ++ t ++ tsSuffix := by
  have hstart : pyStartsWith hashStr (segmentLit ++ slug ++ slashLit ++ t ++ tsSuffix) = false := by
    rw [seg_shape_cons]
    exact pyStartsWith_hash_slash _
  have hblank : isBlank (segmentLit ++ slug ++ slashLit ++ t ++ tsSuffix) = false :=
    isBlank_false_of_mem (slash_mem_seg_shape slug t) (by decide)
  have hts : pyEndsWith tsSuffix (segmentLit ++ slug ++ slashLit ++ t ++ tsSuffix) = true :=
    pyEndsWith_append _ _
  rw [rewrite_line, hstart, hblank]
  simp only [Bool.or_self, Bool.false_eq_true, if_false, hts, if_true,
    stemOf_seg_shape slug t h1 h2]

theorem rewrite_line_stream_shape (slug2 t : Str) (h2 : '.' ∉ t) :
    rewrite_line slug2 (streamLit ++ t) = streamLit ++ t := by
  have hstart : pyStartsWith hashStr (streamLit ++ t) = false := by
    rw [stream_shape_cons]
    exact pyStartsWith_hash_slash _
  have hblank : isBlank (streamLit ++ t) = false :=
    isBlank_false_of_mem (slash_mem_stream_shape t) (by decide)
  have hnodot : '.' ∉ streamLit ++ t := by
    intro hmem
    rcases List.mem_append.mp hmem with hmem | hmem
    · exact absurd hmem (by decide)
    · exact h2 hmem
  have hts : pyEndsWith tsSuffix (streamLit ++ t) = false :=
    pyEndsWith_false_of_not_mem (by decide) hnodot
  have hm : pyEndsWith m3u8Suffix (streamLit ++ t) = false :=
    pyEndsWith_false_of_not_mem (by decide) hnodot
  rw [rewrite_line, hstart, hblank]
  simp only [Bool.or_self, Bool.false_eq_true, if_false, hts, hm]

theorem rewrite_line_idem (slug line : Str) :
    rewrite_line slug (rewrite_line slug line) = rewrite_line slug line := by
  by_cases hb : (pyStartsWith hashStr line || isBlank line) = true
  · have h : rewrite_line slug line = line := by
      simp [rewrite_line, hb]
    rw [h]
    exact h
  · have hb' : (pyStartsWith hashStr line || isBlank line) = false :=
      Bool.not_eq_true _ ▸ Bool.of_not_eq_true hb
    by_cases hts : pyEndsWith tsSuffix line = true
    · have h : rewrite_line slug line
          = segmentLit ++ slug ++ slashLit ++ stemOf line ++ tsSuffix := by
        rw [rewrite_line, hb']
        simp only [Bool.false_eq_true, if_false, hts, if_true]
      rw [h]
      exact rewrite_line_seg_shape slug slug (stemOf line)
        (slash_not_mem_stemOf line) (dot_not_mem_stemOf line)
    · have hts' : pyEndsWith tsSuffix line = false :=
        Bool.not_eq_true _ ▸ Bool.of_not_eq_true hts
      by_cases hm : pyEndsWith m3u8Suffix line = true
      · have h : rewrite_line slug line = streamLit ++ stemOf line := by
          rw [rewrite_line, hb']
          simp only [Bool.false_eq_true, if_false, hts', hm, if_true]
        rw [h]
        exact rewrite_line_stream_shape slug (stemOf line) (dot_not_mem_stemOf line)
      · have hm' : pyEndsWith m3u8Suffix line = false :=
          Bool.not_eq_true _ ▸ Bool.of_not_eq_true hm
        have h : rewrite_line slug line = line := by
          rw [rewrite_line, hb']
          simp only [Bool.false_eq_true, if_false, hts', hm']
        rw [h]
        exact h

theorem newline_not_mem_rewrite_line {slug line : Str}
    (hs : '\n' ∉ slug) (hl : '\n' ∉ line) : '\n' ∉ rewrite_line slug line := by
  by_cases hb : (pyStartsWith hashStr line || isBlank line) = true
  · have h : rewrite_line slug line = line := by
      simp [rewrite_line, hb]
    rw [h]
    exact hl
  · have hb' : (pyStartsWith hashStr line || isBlank line) = false :=
      Bool.not_eq_true _ ▸ Bool.of_not_eq_true hb
    by_cases hts : pyEndsWith tsSuffix line = true
    · rw [rewrite_line, hb']
      simp only [Bool.false_eq_true, if_false, hts, if_true]
      intro hmem
      simp only [List.mem_append] at hmem
      rcases hmem with ((((h | h) | h) | h) | h)
      · exact absurd h (by decide)
      · exact hs h
      · exact absurd h (by decide)
      · exact hl (mem_of_mem_stemOf h)
      · exact absurd h (by decide)
    · have hts' : pyEndsWith tsSuffix line = false :=
        Bool.not_eq_true _ ▸ Bool.of_not_eq_true hts
      by_cases hm : pyEndsWith m3u8Suffix line = true
      · rw [rewrite_line, hb']
        simp only [Bool.false_eq_true, if_false, hts', hm, if_true]
        intro hmem
        rcases List.mem_append.mp hmem with h | h
        · exact absurd h (by decide)
        · exact hl (mem_of_mem_stemOf h)
      · have hm' : pyEndsWith m3u8Suffix line = false :=
          Bool.not_eq_true _ ▸ Bool.of_not_eq_true hm
        rw [rewrite_line, hb']
        simp only [Bool.false_eq_true, if_false, hts', hm']
        exact hl


/-! ### Claim theorems -/

/-- Claim C6, counterexample: the claim reads the stem as the portion of
the filename after the last slash and before the extension, so on the
manifest line seg/4.2.ts with slug abc it predicts /segment/abc/4.2.ts;
the engine instead truncates at the first dot of the filename and
produces /segment/abc/4.ts. -/
theorem rewrite_ts_stem_truncates_at_first_dot :
    rewrite_hls_playlist exDotManifest exSlugAbc [] = exDotActual ∧
    exDotActual ≠ exDotClaimed := by
  constructor
  · decide
  · decide

/-- Claim C6, amended: every manifest line that does not start with a
hash mark and ends in the segment suffix is replaced by the proxy
segment path built from the slug and the stem, where the stem is the
portion of the filename after the last slash and before the FIRST dot;
rewriting the manifest seg/42.ts with slug abc yields exactly
/segment/abc/42.ts. -/
theorem rewrite_ts_line_spec :
    (∀ slug line : Str, pyStartsWith hashStr line = false →
      pyEndsWith tsSuffix line = true →
      rewrite_line slug line = segmentLit ++ slug ++ slashLit ++ stemOf line ++ tsSuffix ∧
      stemOf line = (last_elem '/' line).takeWhile (fun c => c != '.')) ∧
    (∀ b : Str, rewrite_hls_playlist exTsManifest exSlugAbc b = exTsExpected) := by
  constructor
  · intro slug line hstart hts
    have hblank : isBlank line = false :=
      @isBlank_false_of_mem line 's' (@mem_of_pyEndsWith tsSuffix line 's' hts (by decide))
        (by decide)
    constructor
    · rw [rewrite_line, hstart, hblank]
      simp only [Bool.or_self, Bool.false_eq_true, if_false, hts, if_true]
    · rw [stemOf, first_elem_eq_takeWhile]
  · intro b
    rfl

/-- Witness for the amended claim C6 at the concrete segment line. -/
theorem rewrite_ts_line_spec_witness :
    rewrite_line exSlugAbc exTsManifest
      = segmentLit ++ exSlugAbc ++ slashLit ++ stemOf exTsManifest ++ tsSuffix ∧
    stemOf exTsManifest = (last_elem '/' exTsManifest).takeWhile (fun c => c != '.') :=
  rewrite_ts_line_spec.1 exSlugAbc exTsManifest (by decide) (by decide)

/-- Claim C7, confirmed: every manifest line that does not start with a
hash mark and ends in the manifest suffix is replaced by the proxy
stream path built from the stem extracted from the filename; rewriting
the manifest variant/720p.m3u8 yields exactly /stream/720p for any
slug. -/
theorem rewrite_m3u8_line_spec :
    (∀ slug line : Str, pyStartsWith hashStr line = false →
      pyEndsWith m3u8Suffix line = true →
      rewrite_line slug line = streamLit ++ stemOf line) ∧
    (∀ slug b : Str, rewrite_hls_playlist exVariantManifest slug b = exStreamExpected) := by
  constructor
  · intro slug line hstart hm
    have hblank : isBlank line = false :=
      @isBlank_false_of_mem line '8' (@mem_of_pyEndsWith m3u8Suffix line '8' hm (by decide))
        (by decide)
    have hts := pyEndsWith_ts_false_of_m3u8 hm
    rw [rewrite_line, hstart, hblank]
    simp only [Bool.or_self, Bool.false_eq_true, if_false, hts, hm, if_true]
  · intro slug b
    rfl

/-- Witness for claim C7 at the concrete variant line. -/
theorem rewrite_m3u8_line_spec_witness :
    rewrite_line exSlugAbc exVariantManifest = streamLit ++ stemOf exVariantManifest :=
  rewrite_m3u8_line_spec.1 exSlugAbc exVariantManifest (by decide) (by decide)

/-- Claim C9, counterexample: with a slug containing a newline, the
rewritten segment path itself spans two lines of the output, so a second
rewrite with the same slug changes the text again: the rewrite is not
idempotent for every slug. -/
theorem rewrite_not_idempotent_for_newline_slug :
    rewrite_hls_playlist (rewrite_hls_playlist exTsLine exNlSlug []) exNlSlug []
      ≠ rewrite_hls_playlist exTsLine exNlSlug [] := by
  decide

/-- Claim C9, amended: the rewrite engine is a pure function, and for
every manifest text and every slug not containing a newline character,
rewriting the output again with the same slug (and any base argument,
which the engine ignores) yields the output unchanged. -/
theorem rewrite_idempotent_without_newline_slug :
    ∀ (m slug b b2 : Str), '\n' ∉ slug →
      rewrite_hls_playlist (rewrite_hls_playlist m slug b) slug b2
        = rewrite_hls_playlist m slug b := by
  intro m slug b b2 hs
  simp only [rewrite_hls_playlist]
  rw [pySplit_pyJoin
      (by
        simp only [ne_eq, List.map_eq_nil_iff]
        exact pySplit_ne_nil '\n' m)
      (by
        intro l hl
        rcases List.mem_map.mp hl with ⟨l0, hl0, rfl⟩
        exact newline_not_mem_rewrite_line hs (sep_not_mem_of_mem_pySplit hl0))]
  rw [List.map_map]
  congr 1
  apply List.map_congr_left
  intro a _
  simp only [Function.comp_apply]
  exact rewrite_line_idem slug a

/-- Witness for the amended claim C9 at a concrete mixed manifest. -/
theorem rewrite_idempotent_without_newline_slug_witness :
    rewrite_hls_playlist (rewrite_hls_playlist exMixedManifest exSlugAbc []) exSlugAbc []
      = rewrite_hls_playlist exMixedManifest exSlugAbc [] :=
  rewrite_idempotent_without_newline_slug exMixedManifest exSlugAbc [] [] (by decide)

/-- Claim C10, confirmed: a line changes under the rewrite only when it
ends with exactly the segment or manifest suffix and does not start with
a hash mark, the match being on the raw line as split at newline
characters; consequently a CRLF manifest, whose lines keep a trailing
carriage return, passes through entirely unchanged for any slug. -/
theorem rewrite_passthrough_without_exact_suffix :
    (∀ slug line : Str,
      pyStartsWith hashStr line = true ∨
        (pyEndsWith tsSuffix line = false ∧ pyEndsWith m3u8Suffix line = false) →
      rewrite_line slug line = line) ∧
    (∀ slug b : Str, rewrite_hls_playlist exCrlfManifest slug b = exCrlfManifest) := by
  constructor
  · intro slug line h
    rcases h with h | ⟨h1, h2⟩
    · have hb : (pyStartsWith hashStr line || isBlank line) = true := by
        rw [h]
        rfl
      simp [rewrite_line, hb]
    · by_cases hb : (pyStartsWith hashStr line || isBlank line) = true
      · simp [rewrite_line, hb]
      · have hb' : (pyStartsWith hashStr line || isBlank line) = false :=
          Bool.not_eq_true _ ▸ Bool.of_not_eq_true hb
        rw [rewrite_line, hb']
        simp only [Bool.false_eq_true, if_false, h1, h2]
  · intro slug b
    rfl

/-- Witness for claim C10 at the concrete carriage-return line. -/
theorem rewrite_passthrough_without_exact_suffix_witness :
    rewrite_line exSlugAbc exCrLine = exCrLine :=
  rewrite_passthrough_without_exact_suffix.1 exSlugAbc exCrLine
    (Or.inr ⟨by decide, by decide⟩)

/-- Claim C8, confirmed: a batch registration merges into the registry:
for every key, the merged registry yields the last binding of that key
in the batch when the batch mentions it, and the previous binding
otherwise; in the concrete scenario, registering the first key then the
second leaves both resolvable, and re-registering the first key updates
it without affecting the second. -/
theorem register_merge_semantics :
    (∀ (d new : Dict) (k : Str),
      dget (dupdate d new) k = Option.or (dget new.reverse k) (dget d k)) ∧
    (dget exSt2.stream_map keyA = some valU1 ∧
     dget exSt2.stream_map keyB = some valU2 ∧
     dget exSt3.stream_map keyA = some valU3 ∧
     dget exSt3.stream_map keyB = some valU2 ∧
     (register exSt0 [(keyA, valU1)]).2 = ("OK".data, 200)) := by
  constructor
  · exact dget_dupdate
  · refine ⟨?_, ?_, ?_, ?_, ?_⟩ <;> decide


/-- Claim C3, counterexample: a successful manifest fetch through the
HLS manifest handler serves the rewritten manifest but leaves the
application state, and in particular the segment base cache, untouched:
after the fetch the cache still has no entry for the slug. -/
theorem hls_playlist_does_not_prime_segment_cache :
    (hls_playlist wState wSlug wFetchOk).1 = wState ∧
    dget (hls_playlist wState wSlug wFetchOk).1.segment_base_map wSlug = none ∧
    (hls_playlist wState wSlug wFetchOk).2
      = Resp.content 200 (rewrite_hls_playlist exTsManifest wSlug (base_of wUrl))
          hlsMime hlsHeaders := by
  refine ⟨?_, ?_, ?_⟩ <;> decide

/-- Claim C3, amended: the HLS manifest handler never writes any state;
on a successful fetch of the manifest of a registered slug it computes
the base URL from the manifest source URL and passes it to the rewrite
engine, serving the rewritten manifest, but it does not store the base
in the segment base cache (only the stream handler populates that
cache). -/
theorem hls_playlist_leaves_state_unchanged :
    ∀ (st : AppState) (slug : Str) (up : FetchResult),
      (hls_playlist st slug up).1 = st ∧
      (∀ (url : Str) (r : UpstreamResp),
        dget st.stream_map slug = some url → url ≠ [] →
        up = FetchResult.resp r → ¬(400 ≤ r.status ∧ r.status < 600) →
        (hls_playlist st slug up).2
          = Resp.content 200 (rewrite_hls_playlist r.body slug (base_of url))
              hlsMime hlsHeaders) := by
  intro st slug up
  constructor
  · cases hget : dget st.stream_map slug with
    | none => simp [hls_playlist, hget]
    | some url =>
      by_cases hemp : url.isEmpty
      · simp [hls_playlist, hget, hemp]
      · cases up with
        | raises e => simp [hls_playlist, hget, hemp]
        | resp r =>
          by_cases hst : 400 ≤ r.status ∧ r.status < 600
          · simp [hls_playlist, hget, hemp, hst]
          · simp [hls_playlist, hget, hemp, hst]
  · intro url r hget hne hup hst
    subst hup
    have hemp : url.isEmpty = false := by
      cases url with
      | nil => exact absurd rfl hne
      | cons a t => rfl
    simp [hls_playlist, hget, hemp, hst]

/-- Witness for the amended claim C3 at a concrete registered slug and
successful fetch. -/
theorem hls_playlist_leaves_state_unchanged_witness :
    (hls_playlist wState wSlug wFetchOk).2
      = Resp.content 200 (rewrite_hls_playlist exTsManifest wSlug (base_of wUrl))
          hlsMime hlsHeaders :=
  (hls_playlist_leaves_state_unchanged wState wSlug wFetchOk).2 wUrl
    { status := 200, contentType := some ("application/vnd.apple.mpegurl".data),
      body := exTsManifest }
    (by decide) (by decide) rfl (by decide)

/-- Claim C4, counterexample: with a cached base for the slug and an
upstream segment response carrying status 404, the handler relays the
upstream status and body to the client instead of answering 502: a
non-2xx upstream status is not converted to a bad-gateway response. -/
theorem segment_proxy_passes_through_upstream_status :
    (segment_proxy wSegState wSlug wIndex none wUp404).2
      = Resp.content 404 ("gone".data) ("text/plain".data) segHeaders ∧
    (segment_proxy wSegState wSlug wIndex none wUp404).2 ≠ Resp.abort 502 := by
  constructor <;> decide

/-- Claim C4, amended: a request with no cached base for the slug is
answered 404; otherwise the upstream request URL is the cached base
joined with the index and the segment suffix and the truthy client
Range header is forwarded; a raised fetch error or a missing upstream
content-type header is answered 502, while an upstream response with a
content type is relayed with the upstream status code, whether or not
it is 2xx. -/
theorem segment_proxy_spec :
    ∀ (st : AppState) (slug index : Str) (range : Option Str) (up : FetchResult),
      (dget st.segment_base_map slug = none →
        segment_proxy st slug index range up = (none, Resp.abort 404)) ∧
      (∀ base : Str, dget st.segment_base_map slug = some base → base ≠ [] →
        (segment_proxy st slug index range up).1
          = some { url := urljoin base (index ++ tsSuffix), range := forwarded_range range } ∧
        (∀ e : Str, up = FetchResult.raises e →
          (segment_proxy st slug index range up).2 = Resp.abort 502) ∧
        (∀ r : UpstreamResp, up = FetchResult.resp r → r.contentType = none →
          (segment_proxy st slug index range up).2 = Resp.abort 502) ∧
        (∀ (r : UpstreamResp) (ct : Str), up = FetchResult.resp r → r.contentType = some ct →
          (segment_proxy st slug index range up).2
            = Resp.content r.status r.body ct segHeaders)) := by
  intro st slug index range up
  constructor
  · intro hget
    simp [segment_proxy, hget]
  · intro base hget hne
    have hemp : base.isEmpty = false := by
      cases base with
      | nil => exact absurd rfl hne
      | cons a t => rfl
    refine ⟨?_, ?_, ?_, ?_⟩
    · cases up with
      | raises e => simp [segment_proxy, hget, hemp]
      | resp r =>
        cases hct : r.contentType with
        | none => simp [segment_proxy, hget, hemp, hct]
        | some ct => simp [segment_proxy, hget, hemp, hct]
    · intro e hup
      subst hup
      simp [segment_proxy, hget, hemp]
    · intro r hup hct
      subst hup
      simp [segment_proxy, hget, hemp, hct]
    · intro r ct hup hct
      subst hup
      simp [segment_proxy, hget, hemp, hct]

/-- Witness for the amended claim C4 at a concrete cached base, Range
header and successful upstream response. -/
theorem segment_proxy_spec_witness :
    (segment_proxy wSegState wSlug wIndex (some wRange) wUpOk).1
      = some { url := urljoin wBase (wIndex ++ tsSuffix), range := forwarded_range (some wRange) } ∧
    (segment_proxy wSegState wSlug wIndex (some wRange) wUpOk).2
      = Resp.content 200 ("data".data) ("video/mp2t".data) segHeaders := by
  have h := (segment_proxy_spec wSegState wSlug wIndex (some wRange) wUpOk).2 wBase
    (by decide) (by decide)
  exact ⟨h.1, h.2.2.2 ⟨200, some ("video/mp2t".data), "data".data⟩ ("video/mp2t".data) rfl rfl⟩

/-- Claim C5, confirmed: for every slug the stream handler finds (bound
in the registry to a truthy URL), the response is a 302 redirect to the
resolved URL; the segment base cache receives the base of the URL under
the slug exactly when the URL ends with the manifest suffix, the stored
value always ends with a slash, and when the URL does not end with the
suffix the state is unchanged. -/
theorem stream_redirects_and_primes_cache :
    ∀ (st : AppState) (slug url : Str),
      dget st.stream_map slug = some url → url ≠ [] →
      (stream st slug).2 = Resp.redirect url 302 ∧
      (pyEndsWith m3u8Suffix url = true →
        (stream st slug).1.segment_base_map = dset st.segment_base_map slug (base_of url) ∧
        dget (stream st slug).1.segment_base_map slug = some (base_of url) ∧
        (base_of url).getLast? = some '/') ∧
      (pyEndsWith m3u8Suffix url = false → (stream st slug).1 = st) := by
  intro st slug url hget hne
  have hemp : url.isEmpty = false := by
    cases url with
    | nil => exact absurd rfl hne
    | cons a t => rfl
  have hstream : stream st slug
      = ((if pyEndsWith m3u8Suffix url then
            { st with segment_base_map := dset st.segment_base_map slug (base_of url) }
          else st), Resp.redirect url 302) := by
    simp only [stream, hget, hemp, Bool.false_eq_true, if_false]
  refine ⟨?_, ?_, ?_⟩
  · rw [hstream]
  · intro hm
    rw [hstream, if_pos hm]
    refine ⟨rfl, ?_, ?_⟩
    · rw [dget_dset]
      simp
    · rw [base_of, slashLit_eq, List.getLast?_concat]
  · intro hm
    rw [hstream, if_neg (by simp [hm])]

/-- Witness for claim C5 at a concrete registered manifest URL. -/
theorem stream_redirects_and_primes_cache_witness :
    (stream wState wSlug).2 = Resp.redirect wUrl 302 ∧
    dget (stream wState wSlug).1.segment_base_map wSlug = some (base_of wUrl) := by
  have h := stream_redirects_and_primes_cache wState wSlug wUrl (by decide) (by decide)
  exact ⟨h.1, (h.2.1 (by decide)).2.1⟩


/-- Claim C1, counterexample: the main scheduler loop exits at the very
first unexpected exception raised inside the loop body, not after three
consecutive ones: a trace consisting of a single faulting iteration
already leaves the loop dead at index zero. -/
theorem scheduler_loop_dead_after_single_unexpected :
    (scheduler_main_loop [cexTick]).2 = some 0 := rfl

/-- Claim C1, amended: every error returned or raised by the refresh
operation is swallowed inside epg_scheduler, which always completes, and
such errors never terminate the loop; but one single unexpected
exception inside the loop body itself terminates the loop: the loop
dies exactly at the index of the first faulting iteration, and a trace
without faults keeps the loop running whatever the refresh outcomes. -/
theorem scheduler_loop_swallow_and_first_fault :
    (∀ b : EpgBehavior, (epg_scheduler b).isOk = true) ∧
    (∀ tr : List Tick, (scheduler_main_loop tr).2 = first_fault_index tr) ∧
    (∀ tr : List Tick, (∀ t ∈ tr, t.fault = none) →
      (scheduler_main_loop tr).2 = none) := by
  have hok : ∀ b : EpgBehavior, (epg_scheduler b).isOk = true := by
    intro b
    cases b with
    | returns r => cases r <;> rfl
    | raises e => rfl
  have hrun : ∀ o : Option EpgBehavior, ∃ l, run_refresh o = Except.ok l := by
    intro o
    cases o with
    | none => exact ⟨[], rfl⟩
    | some b =>
      cases b with
      | returns r =>
        cases r with
        | none => exact ⟨[], rfl⟩
        | some m => exact ⟨[m], rfl⟩
      | raises e => exact ⟨[e], rfl⟩
  have hmain : ∀ tr : List Tick, (scheduler_main_loop tr).2 = first_fault_index tr := by
    intro tr
    induction tr with
    | nil => rfl
    | cons t rest ih =>
      cases hf : t.fault with
      | some e =>
        have hbody : loop_body t = Except.error e := by
          simp [loop_body, hf]
        simp [scheduler_main_loop, hbody, first_fault_index, hf]
      | none =>
        obtain ⟨l1, h1⟩ := hrun t.scheduled
        obtain ⟨l2, h2⟩ := hrun t.manual
        have hbody : loop_body t = Except.ok (l1 ++ l2) := by
          simp [loop_body, hf, h1, h2]
        simp [scheduler_main_loop, hbody, first_fault_index, hf, ih]
  refine ⟨hok, hmain, ?_⟩
  intro tr hall
  rw [hmain tr]
  induction tr with
  | nil => rfl
  | cons t rest ih =>
    have hf := hall t (List.mem_cons_self t rest)
    simp [first_fault_index, hf, ih (fun x hx => hall x (List.mem_cons_of_mem t hx))]

/-- Witness for the amended claim C1: an iteration whose scheduled
refresh returns an error and whose manual refresh raises still leaves
the loop running. -/
theorem scheduler_loop_swallow_and_first_fault_witness :
    (scheduler_main_loop [swallowTick]).2 = none :=
  scheduler_loop_swallow_and_first_fault.2.2 [swallowTick]
    (by
      intro t ht
      simp only [List.mem_singleton] at ht
      subst ht
      rfl)

/-- Claim C2, confirmed: the startup phase runs the refresh once before
the periodic loop and, while the attempt raises, retries after a fixed
ten-second sleep indefinitely: the scheduler enters the steady-state
loop exactly when some attempt completes, consuming one attempt more
than the number of failures and sleeping ten seconds per failure; with
no completed attempt the main loop is never entered. -/
theorem initial_refresh_retries_until_success :
    (∀ init : List Attempt,
      (initial_phase init).2 = (first_success_index init).map (fun i => (i + 1, 10 * i))) ∧
    (∀ tr : SchedulerTrace,
      (scheduler_thread tr).entered_main = ((initial_phase tr.init).2).isSome) ∧
    (∀ (tr : SchedulerTrace) (i : Nat), first_success_index tr.init = some i →
      (scheduler_thread tr).init_attempts = i + 1 ∧
      (scheduler_thread tr).init_sleep = 10 * i) := by
  have hph : ∀ init : List Attempt,
      (initial_phase init).2 = (first_success_index init).map (fun i => (i + 1, 10 * i)) := by
    intro init
    induction init with
    | nil => rfl
    | cons a rest ih =>
      cases hf : a.fault with
      | none =>
        obtain ⟨l, hl⟩ : ∃ l, init_attempt a = Except.ok l := by
          rw [init_attempt, hf]
          cases hb : a.behavior with
          | returns r =>
            cases r with
            | none => exact ⟨[], rfl⟩
            | some m => exact ⟨[m], rfl⟩
          | raises e => exact ⟨[e], rfl⟩
        simp [initial_phase, hl, first_success_index, hf]
      | some e =>
        have hatt : init_attempt a = Except.error e := by
          simp [init_attempt, hf]
        cases hfsi : first_success_index rest with
        | none =>
          have hih := ih
          rw [hfsi] at hih
          simp [initial_phase, hatt, first_success_index, hf, hfsi, hih]
        | some i =>
          have hih := ih
          rw [hfsi] at hih
          simp [initial_phase, hatt, first_success_index, hf, hfsi, hih]
          omega
  refine ⟨hph, ?_, ?_⟩
  · intro tr
    cases h2 : (initial_phase tr.init).2 with
    | none => simp [scheduler_thread, h2]
    | some p => simp [scheduler_thread, h2]
  · intro tr i hfs
    have h2 := hph tr.init
    rw [hfs] at h2
    simp at h2
    constructor
    · simp [scheduler_thread, h2]
    · simp [scheduler_thread, h2]

/-- Witness for claim C2: a trace whose first attempt raises and whose
second completes enters the main loop after two attempts and one
ten-second sleep. -/
theorem initial_refresh_retries_until_success_witness :
    (scheduler_thread wSchedTrace).init_attempts = 2 ∧
    (scheduler_thread wSchedTrace).init_sleep = 10 := by
  have h := initial_refresh_retries_until_success.2.2 wSchedTrace 1 (by decide)
  exact ⟨h.1, h.2⟩

end PlexProxy
